import Mathlib

/-!
Verification of the email-worker core (src/email-worker/src/index.ts):
the MIME body extractor with its ordered fallback chain, the
quoted-printable / whitespace clean step, the webhook payload builder
and the best-effort forwarder.

Strings are modelled as lists of characters.  Each JavaScript regular
expression used by the source is embedded as a deterministic scanner:
for every pattern appearing in the source, the backtracking search of
the JS engine is deterministic (each greedy sub-pattern is followed by
a token that can never begin inside the matched character class, and
each lazy sub-pattern is resolved by the earliest position at which its
terminator matches), so the scanners below compute exactly the match,
capture and replacement results of the engine.  Recursions that are not
structural on the list take an explicit fuel argument; every entry
point supplies fuel equal to the length of the list, which is always
sufficient since every step consumes at least one character.
-/

/-- Characters of a string literal. -/
def str (s : String) : List Char := s.toList

/-- The character class of the JS `\s` escape (and of `String.prototype.trim`):
space, tab, LF, VT, FF, CR, NBSP and the Unicode space separators. -/
def isSpace (c : Char) : Bool :=
  decide (c.toNat = 32) || decide (c.toNat = 9) || decide (c.toNat = 10) ||
  decide (c.toNat = 11) || decide (c.toNat = 12) || decide (c.toNat = 13) ||
  decide (c.toNat = 160) || decide (c.toNat = 5760) ||
  (decide (8192 ≤ c.toNat) && decide (c.toNat ≤ 8202)) ||
  decide (c.toNat = 8232) || decide (c.toNat = 8233) || decide (c.toNat = 8239) ||
  decide (c.toNat = 8287) || decide (c.toNat = 12288) || decide (c.toNat = 65279)

/-- The character class `[\w-]`: ASCII letters, digits, underscore, hyphen. -/
def isWordDash (c : Char) : Bool :=
  (decide (97 ≤ c.toNat) && decide (c.toNat ≤ 122)) ||
  (decide (65 ≤ c.toNat) && decide (c.toNat ≤ 90)) ||
  (decide (48 ≤ c.toNat) && decide (c.toNat ≤ 57)) ||
  decide (c.toNat = 95) || decide (c.toNat = 45)

/-- Value of a hex digit, as accepted by `[0-9A-Fa-f]`. -/
def hexVal (c : Char) : Option Nat :=
  if 48 ≤ c.toNat ∧ c.toNat ≤ 57 then some (c.toNat - 48)
  else if 65 ≤ c.toNat ∧ c.toNat ≤ 70 then some (c.toNat - 55)
  else if 97 ≤ c.toNat ∧ c.toNat ≤ 102 then some (c.toNat - 87)
  else none

/-- ASCII lower-casing, as used by the `/i` flag on the source's patterns. -/
def lowerC (c : Char) : Char :=
  if 65 ≤ c.toNat ∧ c.toNat ≤ 90 then Char.ofNat (c.toNat + 32) else c

/-- Case-insensitive literal prefix test (the `/i` flag). -/
def hasPrefixCI : List Char → List Char → Bool
  | [], _ => true
  | _ :: _, [] => false
  | p :: ps, c :: cs => if lowerC p = lowerC c then hasPrefixCI ps cs else false

/-- Maximal run of `\s*` (greedy; the following literal starts with a
non-space character, so the engine never backtracks into it). -/
def dropSpaces (l : List Char) : List Char := l.dropWhile isSpace

/-- Maximal run of `[^\r\n]*` (greedy; followed by `\r?\n`, which can only
begin at a CR or LF, so the engine never backtracks into it). -/
def dropNonCRLF (l : List Char) : List Char :=
  l.dropWhile (fun c => !(decide (c = '\r') || decide (c = '\n')))

/-- `\r?\n`, greedy on the optional CR. -/
def lineEnd : List Char → Option (List Char)
  | '\r' :: '\n' :: r => some r
  | '\n' :: r => some r
  | _ => none

/-- One iteration of `(?:[\w-]+:[^\r\n]*\r?\n)`: a header-like line. -/
def headerLine (l : List Char) : Option (List Char) :=
  if (l.takeWhile isWordDash).isEmpty then none
  else
    match l.dropWhile isWordDash with
    | ':' :: r => lineEnd (dropNonCRLF r)
    | _ => none

/-- The greedy star `(?:[\w-]+:[^\r\n]*\r?\n)*`: consume header-like lines
while possible.  (Backtracking out of an iteration cannot help: every
iteration starts with a `[\w-]` character, at which the following `\r?\n`
necessarily fails.) -/
def headerLines : Nat → List Char → List Char
  | 0, l => l
  | f + 1, l =>
    match headerLine l with
    | some r => headerLines f r
    | none => l

/-- The lazy capture `([\s\S]*?)` followed by a terminator: the capture is
the shortest span after which the terminator matches. -/
def capture (term : List Char → Bool) : Nat → List Char → List Char → Option (List Char)
  | 0, acc, l => if term l then some acc.reverse else none
  | f + 1, acc, l =>
    if term l then some acc.reverse
    else
      match l with
      | [] => none
      | c :: r => capture term f (c :: acc) r

/-- Terminator of the `text/html` pattern: `(?:\r?\n--)`. -/
def isTermH (l : List Char) : Bool :=
  (str ("\r\n--")).isPrefixOf l || (str ("\n--")).isPrefixOf l

/-- Terminator of the `text/plain` pattern: `(?:\r?\n--|\r?\n\r?\n--)`. -/
def isTermP (l : List Char) : Bool :=
  isTermH l ||
  (str ("\r\n\r\n--")).isPrefixOf l || (str ("\r\n\n--")).isPrefixOf l ||
  (str ("\n\r\n--")).isPrefixOf l || (str ("\n\n--")).isPrefixOf l

/-- Attempt of the `text/plain` pattern at the head of `l`, returning the
capture group:
`Content-Type:\s*text\/plain[^\r\n]*\r?\n(?:[\w-]+:[^\r\n]*\r?\n)*\r?\n([\s\S]*?)(?:\r?\n--|\r?\n\r?\n--)` with `/i`. -/
def matchAtP (l : List Char) : Option (List Char) :=
  if hasPrefixCI (str ("Content-Type:")) l then
    let l1 := dropSpaces (l.drop 13)
    if hasPrefixCI (str ("text/plain")) l1 then
      match lineEnd (dropNonCRLF (l1.drop 10)) with
      | none => none
      | some l2 =>
        match lineEnd (headerLines l2.length l2) with
        | none => none
        | some l4 => capture isTermP l4.length [] l4
    else none
  else none

/-- Attempt of the `text/html` pattern at the head of `l`:
`Content-Type:\s*text\/html[^\r\n]*\r?\n(?:[\w-]+:[^\r\n]*\r?\n)*\r?\n([\s\S]*?)(?:\r?\n--)` with `/i`. -/
def matchAtH (l : List Char) : Option (List Char) :=
  if hasPrefixCI (str ("Content-Type:")) l then
    let l1 := dropSpaces (l.drop 13)
    if hasPrefixCI (str ("text/html")) l1 then
      match lineEnd (dropNonCRLF (l1.drop 9)) with
      | none => none
      | some l2 =>
        match lineEnd (headerLines l2.length l2) with
        | none => none
        | some l4 => capture isTermH l4.length [] l4
    else none
  else none

/-- Leftmost match: try the pattern at every position, earliest first
(the semantics of `String.prototype.match` with a non-global regex). -/
def searchCap (matchAt : List Char → Option (List Char)) : Nat → List Char → Option (List Char)
  | 0, l => matchAt l
  | f + 1, l =>
    match matchAt l with
    | some cap => some cap
    | none =>
      match l with
      | [] => none
      | _ :: r => searchCap matchAt f r

/-- The capture of `raw.match(/Content-Type:\s*text\/plain.../i)`. -/
def plainSection (raw : List Char) : Option (List Char) :=
  searchCap matchAtP raw.length raw

/-- The capture of `raw.match(/Content-Type:\s*text\/html.../i)`. -/
def htmlSection (raw : List Char) : Option (List Char) :=
  searchCap matchAtH raw.length raw

/-- Split a list at its first `'>'`: `splitAtGt l = some (b, a)` iff
`l = b ++ '>' :: a` with `b` free of `'>'`. -/
def splitAtGt : List Char → Option (List Char × List Char)
  | [] => none
  | c :: r =>
    if c = '>' then some ([], r)
    else
      match splitAtGt r with
      | some (b, a) => some (c :: b, a)
      | none => none

/-- Scan for the closing `</style>` of the lazy `[\s\S]*?<\/style>` (`/i`):
the earliest occurrence wins; returns the remainder after it. -/
def findCloseStyle : Nat → List Char → Option (List Char)
  | _, [] => none
  | 0, _ => none
  | f + 1, c :: r =>
    if hasPrefixCI (str ("</style>")) (c :: r) then some ((c :: r).drop 8)
    else findCloseStyle f r

/-- Attempt of `<style[^>]*>[\s\S]*?<\/style>` (`/i`) at the head of `l`,
returning the remainder after the whole match. -/
def styleMatchAt (l : List Char) : Option (List Char) :=
  if hasPrefixCI (str ("<style")) l then
    match splitAtGt (l.drop 6) with
    | some (_, a) => findCloseStyle a.length a
    | none => none
  else none

/-- Global replacement of `<style[^>]*>[\s\S]*?<\/style>` by the empty
string (`.replace(/<style[^>]*>[\s\S]*?<\/style>/gi, "")`): leftmost
match removed, scan resumes after the match. -/
def stripStyles : Nat → List Char → List Char
  | _, [] => []
  | 0, l => l
  | f + 1, c :: r =>
    match styleMatchAt (c :: r) with
    | some rest => stripStyles f rest
    | none => c :: stripStyles f r

/-- `stripStyles` with adequate fuel. -/
def stripStylesR (l : List Char) : List Char := stripStyles l.length l

/-- Global replacement of `<[^>]+>` by a single space
(`.replace(/<[^>]+>/g, " ")`).  At a `'<'`, the greedy `[^>]+` extends to
the first following `'>'`, which must lie at distance at least two; on
`"<>"` no match starts at the `'<'` and none can start at the `'>'`, so
the scan keeps both characters and resumes after them. -/
def stripTags : Nat → List Char → List Char
  | _, [] => []
  | 0, l => l
  | f + 1, c :: r =>
    if c = '<' then
      match splitAtGt r with
      | some ([], a) => c :: '>' :: stripTags f a
      | some (_ :: _, a) => ' ' :: stripTags f a
      | none => c :: stripTags f r
    else c :: stripTags f r

/-- `stripTags` with adequate fuel. -/
def stripTagsR (l : List Char) : List Char := stripTags l.length l

/-- Global replacement of a literal pattern (`.replace(/lit/g, repl)`):
leftmost occurrence replaced, scan resumes after it, the replacement is
not rescanned. -/
def replaceAllL (pat repl : List Char) : Nat → List Char → List Char
  | _, [] => []
  | 0, l => l
  | f + 1, c :: r =>
    if pat.isPrefixOf (c :: r) then repl ++ replaceAllL pat repl f ((c :: r).drop pat.length)
    else c :: replaceAllL pat repl f r

/-- `.replace(/&nbsp;/g, " ")`. -/
def repNbsp (l : List Char) : List Char := replaceAllL (str ("&nbsp;")) (str (" ")) l.length l

/-- `.replace(/&amp;/g, "&")`. -/
def repAmp (l : List Char) : List Char := replaceAllL (str ("&amp;")) (str ("&")) l.length l

/-- `.replace(/&lt;/g, "<")`. -/
def repLt (l : List Char) : List Char := replaceAllL (str ("&lt;")) (str ("<")) l.length l

/-- `.replace(/&gt;/g, ">")`. -/
def repGt (l : List Char) : List Char := replaceAllL (str ("&gt;")) (str (">")) l.length l

/-- The four entity substitutions, in the source's order:
`&nbsp;`, then `&amp;`, then `&lt;`, then `&gt;`. -/
def entityAll (l : List Char) : List Char := repGt (repLt (repAmp (repNbsp l)))

/-- `.replace(/=\r?\n/g, "")`: removal of quoted-printable soft line
breaks (greedy on the optional CR). -/
def qpSoft : Nat → List Char → List Char
  | _, [] => []
  | 0, l => l
  | f + 1, '=' :: '\r' :: '\n' :: r => qpSoft f r
  | f + 1, '=' :: '\n' :: r => qpSoft f r
  | f + 1, c :: r => c :: qpSoft f r

/-- `qpSoft` with adequate fuel. -/
def qpSoftR (l : List Char) : List Char := qpSoft l.length l

/-- `.replace(/=([0-9A-Fa-f]{2})/g, (_, hex) => String.fromCharCode(parseInt(hex, 16)))`:
each `=XX` hex escape becomes the character with that code. -/
def qpHex : Nat → List Char → List Char
  | _, [] => []
  | 0, l => l
  | f + 1, '=' :: c1 :: c2 :: r =>
    match hexVal c1, hexVal c2 with
    | some hi, some lo => Char.ofNat (16 * hi + lo) :: qpHex f r
    | _, _ => '=' :: qpHex f (c1 :: c2 :: r)
  | f + 1, c :: r => c :: qpHex f r

/-- `qpHex` with adequate fuel. -/
def qpHexR (l : List Char) : List Char := qpHex l.length l

/-- `.replace(/\s+/g, " ")`: each maximal run of whitespace becomes one
space.  The flag records whether the previous character was whitespace. -/
def collapseAux : Bool → List Char → List Char
  | _, [] => []
  | prevSp, c :: r =>
    if isSpace c then
      if prevSp then collapseAux true r else ' ' :: collapseAux true r
    else c :: collapseAux false r

/-- Whitespace collapsing from an initial non-space state. -/
def collapseWs (l : List Char) : List Char := collapseAux false l

/-- Leading-whitespace removal (half of `.trim()`). -/
def trimL (l : List Char) : List Char := l.dropWhile isSpace

/-- Trailing-whitespace removal (the other half of `.trim()`). -/
def trimR : List Char → List Char
  | [] => []
  | c :: r =>
    match trimR r with
    | [] => if isSpace c then [] else [c]
    | x :: xs => c :: x :: xs

/-- `.trim()`. -/
def trimBoth (l : List Char) : List Char := trimR (trimL l)

/-- The whitespace-normalization step of `cleanBody`:
`.replace(/\s+/g, " ").trim()`. -/
def wsNorm (l : List Char) : List Char := trimBoth (collapseWs l)

/-- `cleanBody`: soft-break removal, then hex-escape decoding, then
whitespace normalization. -/
def cleanBody (l : List Char) : List Char := wsNorm (qpHexR (qpSoftR l))

/-- `raw.indexOf("\r\n\r\n")`, as an optional index. -/
def firstSep : List Char → Option Nat
  | [] => none
  | c :: r =>
    if (str ("\r\n\r\n")).isPrefixOf (c :: r) then some 0
    else Option.map Nat.succ (firstSep r)

/-- `extractTextBody`: the ordered fallback chain of the source —
plain-text section, HTML section (styles stripped, tags replaced by
spaces, entities decoded in source order), content after the first
blank line when its index is positive, else the first 500 characters. -/
def extractTextBody (raw : List Char) : List Char :=
  match plainSection raw with
  | some cap => cleanBody cap
  | none =>
    match htmlSection raw with
    | some cap => cleanBody (entityAll (stripTagsR (stripStylesR cap)))
    | none =>
      match firstSep raw with
      | some i => if 0 < i then cleanBody (raw.drop (i + 4)) else raw.take 500
      | none => raw.take 500

/-- `message.headers.get("subject") || "(no subject)"`: the JS `||`
substitutes the default for an absent header and for any falsy value,
in particular for the empty string. -/
def subjectOf (h : Option (List Char)) : List Char :=
  match h with
  | none => str ("(no subject)")
  | some s => if s.isEmpty then str ("(no subject)") else s

/-- The webhook payload built by the handler. -/
structure WebhookPayload where
  source : List Char
  fromAddr : List Char
  toAddr : List Char
  subject : List Char
  body : List Char
  received_at : List Char

/-- Observable outcome of one handler invocation: the payload it built,
the log lines it emitted, how many outbound POSTs it issued, and whether
it raised. -/
structure HandlerOutcome where
  payload : WebhookPayload
  logs : List (List Char)
  posts : Nat
  raised : Bool

/-- The `console.log` line emitted before the POST. -/
def receivedMsg (fromA subj : List Char) : List Char :=
  str ("Email received: from=") ++ fromA ++ str (" subject=") ++ subj

/-- The `email` handler, with its one `fetch` call abstracted by its
result: `Except.ok status` for a response, `Except.error e` for a
transport-level error.  The `try`/`catch` of the source becomes the
match on that result: both branches log and return normally, and the
single `fetch` call is the single POST counted. -/
def emailHandler (fromA toA : List Char) (subjHdr : Option (List Char))
    (raw now : List Char) (fetchResult : Except (List Char) (List Char)) : HandlerOutcome :=
  let subject := subjectOf subjHdr
  let body := extractTextBody raw
  let payload : WebhookPayload :=
    { source := str ("email"), fromAddr := fromA, toAddr := toA,
      subject := subject, body := body.take 2000, received_at := now }
  match fetchResult with
  | Except.ok status =>
      { payload := payload,
        logs := [receivedMsg fromA subject, str ("Webhook response: ") ++ status],
        posts := 1, raised := false }
  | Except.error e =>
      { payload := payload,
        logs := [receivedMsg fromA subject, str ("Webhook POST failed: ") ++ e],
        posts := 1, raised := false }

/-- Whether a complete `<[^>]+>` tag starts at the head of the list. -/
def tagHead (l : List Char) : Bool :=
  match l with
  | [] => false
  | c :: r =>
    if c = '<' then
      match splitAtGt r with
      | some (b, _) => !b.isEmpty
      | none => false
    else false

/-- Whether the list contains a complete `<[^>]+>` tag anywhere. -/
def hasTag : List Char → Bool
  | [] => false
  | c :: r => tagHead (c :: r) || hasTag r

/-- Whether the list contains a `<style[^>]*>[\s\S]*?<\/style>` block. -/
def hasStyleBlock : List Char → Bool
  | [] => false
  | c :: r => (styleMatchAt (c :: r)).isSome || hasStyleBlock r

/-- Whether `pat` occurs as a contiguous substring. -/
def containsSub (pat : List Char) : List Char → Bool
  | [] => pat.isEmpty
  | c :: r => pat.isPrefixOf (c :: r) || containsSub pat r

/-- Invariant of collapsed whitespace: every whitespace character is a
single `' '` not preceded (per the flag) by another space. -/
def okRun : Bool → List Char → Bool
  | _, [] => true
  | prevSp, c :: r =>
    if isSpace c then !prevSp && decide (c = ' ') && okRun true r
    else okRun false r

/-! ## Theorems -/

/-- C1: for every RawDocument in which the text/plain pattern finds a
well-formed plain-text section with captured content `cap`, the
extractor returns exactly `cleanBody cap` — the captured span passed
through the quoted-printable decode and whitespace clean step — never
the HTML branch, the header-boundary branch, or the 500-character last
resort. -/
theorem extract_plain_branch (raw cap : List Char)
    (h : plainSection raw = some cap) :
    extractTextBody raw = cleanBody cap := by
  unfold extractTextBody
  rw [h]

/-- Witness for C1 on a concrete well-formed message: the plain section
is found, its body is captured, and the extractor returns it cleaned. -/
theorem extract_plain_branch_witness :
    plainSection (str ("Content-Type: text/plain; charset=utf-8\r\nContent-Transfer-Encoding: 7bit\r\n\r\nHello World\r\n--b--")) = some (str ("Hello World")) ∧
    extractTextBody (str ("Content-Type: text/plain; charset=utf-8\r\nContent-Transfer-Encoding: 7bit\r\n\r\nHello World\r\n--b--")) = cleanBody (str ("Hello World")) :=
  ⟨rfl, extract_plain_branch _ _ rfl⟩

/-- C2 counterexample: the source decodes the entity for the ampersand
before the ones for the angle brackets, so for an HTML section whose
text contains the literal characters of an escaped less-than entity the
result contains a raw angle bracket and not the entity: double
unescaping of introduced content does occur. -/
theorem amp_decoded_before_lt_cex :
    extractTextBody (str ("Content-Type: text/html\r\n\r\nA &amp;lt; B\r\n--")) = str ("A < B") ∧
    containsSub (str ("&lt;")) (extractTextBody (str ("Content-Type: text/html\r\n\r\nA &amp;lt; B\r\n--"))) = false ∧
    containsSub (str ("<")) (extractTextBody (str ("Content-Type: text/html\r\n\r\nA &amp;lt; B\r\n--"))) = true :=
  ⟨rfl, rfl, rfl⟩

/-- C2 amended: in the HTML branch the ampersand entity is decoded
second — after the non-breaking-space entity but before the angle
bracket entities — so entity text introduced by its decoding is itself
decoded afterwards. -/
theorem amp_decoded_before_lt :
    repAmp (str ("&amp;lt;")) = str ("&lt;") ∧
    entityAll (str ("&amp;lt;")) = str ("<") :=
  ⟨rfl, rfl⟩

/-- C3 counterexample: the full clean step is not idempotent — the hex
escape decode can produce a fresh escape sequence, which a second
application decodes further. -/
theorem cleanBody_not_idempotent_cex :
    cleanBody (cleanBody (str ("=3D3D"))) ≠ cleanBody (str ("=3D3D")) := by
  decide

/-- C4 counterexample: a document whose blank-line separator sits at
index zero and which matches neither pattern is returned verbatim by
the last-resort branch, not cleaned after the separator, because the
source tests the separator index with a strict greater-than-zero
comparison. -/
theorem sep_at_zero_cex :
    plainSection (str ("\r\n\r\nab")) = none ∧
    htmlSection (str ("\r\n\r\nab")) = none ∧
    firstSep (str ("\r\n\r\nab")) = some 0 ∧
    extractTextBody (str ("\r\n\r\nab")) = str ("\r\n\r\nab") ∧
    extractTextBody (str ("\r\n\r\nab")) ≠ cleanBody ((str ("\r\n\r\nab")).drop 4) := by
  refine ⟨rfl, rfl, rfl, rfl, ?_⟩
  decide

/-- C4 amended: when neither pattern matches and the first blank-line
separator sits at a positive index `i`, the extractor returns the
cleaned content after that separator. -/
theorem extract_sep_branch (raw : List Char) (i : Nat)
    (h1 : plainSection raw = none) (h2 : htmlSection raw = none)
    (h3 : firstSep raw = some i) (h4 : 0 < i) :
    extractTextBody raw = cleanBody (raw.drop (i + 4)) := by
  unfold extractTextBody
  rw [h1, h2, h3]
  exact if_pos h4

/-- Witness for the amended C4 on a concrete header-only message. -/
theorem extract_sep_branch_witness :
    extractTextBody (str ("X: y\r\n\r\nhello world")) = cleanBody ((str ("X: y\r\n\r\nhello world")).drop 8) :=
  extract_sep_branch _ 4 rfl rfl rfl (by decide)

/-- C5: when no plain-text section, no HTML section and no blank-line
separator is found, the extractor returns the first 500 characters of
the document verbatim (the whole document when shorter); the branch is
a total function and never fails. -/
theorem extract_last_resort (raw : List Char)
    (h1 : plainSection raw = none) (h2 : htmlSection raw = none)
    (h3 : firstSep raw = none) :
    extractTextBody raw = raw.take 500 := by
  unfold extractTextBody
  rw [h1, h2, h3]

/-- Witness for C5 on a concrete separator-free document. -/
theorem extract_last_resort_witness :
    extractTextBody (str ("hello")) = (str ("hello")).take 500 :=
  extract_last_resort _ rfl rfl rfl

/-- C7: the clean step removes soft line breaks before substituting hex
escapes; on the spec's round-trip example it yields exactly the decoded
text. -/
theorem qp_round_trip :
    cleanBody (str ("Hello=\r\nWorld=3D1")) = str ("HelloWorld=1") := by
  decide

/-- C8: for every inbound message, the payload's body has length at
most 2000 and is a prefix of the extracted body. -/
theorem payload_body_bounded (fromA toA : List Char) (subjHdr : Option (List Char))
    (raw now : List Char) (r : Except (List Char) (List Char)) :
    ((emailHandler fromA toA subjHdr raw now r).payload.body).length ≤ 2000 ∧
    ∃ rest, extractTextBody raw = (emailHandler fromA toA subjHdr raw now r).payload.body ++ rest := by
  have hb : (emailHandler fromA toA subjHdr raw now r).payload.body
      = (extractTextBody raw).take 2000 := by
    cases r <;> rfl
  constructor
  · rw [hb, List.length_take]
    exact min_le_left _ _
  · exact ⟨(extractTextBody raw).drop 2000, by rw [hb, List.take_append_drop]⟩

/-- C9: when the outbound POST fails with any transport-level error,
the handler swallows the error, logs a failure line, completes without
raising, and issues exactly one outbound POST. -/
theorem forwarder_swallows_errors (fromA toA : List Char) (subjHdr : Option (List Char))
    (raw now e : List Char) :
    (emailHandler fromA toA subjHdr raw now (Except.error e)).raised = false ∧
    (emailHandler fromA toA subjHdr raw now (Except.error e)).posts = 1 ∧
    (str ("Webhook POST failed: ") ++ e) ∈ (emailHandler fromA toA subjHdr raw now (Except.error e)).logs := by
  refine ⟨rfl, rfl, ?_⟩
  have hl : (emailHandler fromA toA subjHdr raw now (Except.error e)).logs
      = [receivedMsg fromA (subjectOf subjHdr), str ("Webhook POST failed: ") ++ e] := rfl
  rw [hl]
  exact List.mem_cons_of_mem _ (List.mem_cons_self _ _)

/-- C10: an empty-but-present subject header is falsy in the source's
default expression, so the payload's subject is the default, exactly as
for an absent header. -/
theorem empty_subject_defaulted (fromA toA : List Char) (raw now : List Char)
    (r : Except (List Char) (List Char)) :
    (emailHandler fromA toA (some []) raw now r).payload.subject = str ("(no subject)") ∧
    subjectOf (some []) = subjectOf none := by
  constructor
  · cases r <;> rfl
  · rfl

/-! ### Supporting lemmas: whitespace normalization -/

theorem okRun_collapseAux (l : List Char) : ∀ b, okRun b (collapseAux b l) = true := by
  induction l with
  | nil => intro b; rfl
  | cons c r ih =>
    intro b
    by_cases hc : isSpace c = true
    · cases b with
      | true => simpa [collapseAux, hc] using ih true
      | false =>
        have hsp : isSpace ' ' = true := rfl
        simp [collapseAux, hc, okRun, hsp]
        exact ih true
    · have hc' : isSpace c = false := by revert hc; cases isSpace c <;> simp
      simp [collapseAux, hc', okRun]
      exact ih false

theorem collapseAux_of_okRun (l : List Char) : ∀ b, okRun b l = true → collapseAux b l = l := by
  induction l with
  | nil => intro b _; rfl
  | cons c r ih =>
    intro b h
    by_cases hc : isSpace c = true
    · simp [okRun, hc] at h
      obtain ⟨⟨hb, hce⟩, hr⟩ := h
      subst hb
      subst hce
      simp [collapseAux, hc]
      exact ih true hr
    · simp [okRun, hc] at h
      simp [collapseAux, hc]
      exact ih false h

theorem okRun_append_left (p : List Char) :
    ∀ (s : List Char) (b : Bool), okRun b (p ++ s) = true → okRun b p = true := by
  induction p with
  | nil => intro s b _; rfl
  | cons c q ih =>
    intro s b h
    by_cases hc : isSpace c = true
    · simp [okRun, hc, List.cons_append] at h ⊢
      obtain ⟨⟨hb, hce⟩, hr⟩ := h
      exact ⟨⟨hb, hce⟩, ih s true hr⟩
    · simp [okRun, hc, List.cons_append] at h ⊢
      exact ih s false h

theorem okRun_false_of_true (l : List Char) (h : okRun true l = true) :
    okRun false l = true := by
  cases l with
  | nil => rfl
  | cons c r =>
    by_cases hc : isSpace c = true
    · simp [okRun, hc] at h
    · simp [okRun, hc] at h ⊢
      exact h

theorem okRun_trimL (l : List Char) (h : okRun false l = true) :
    okRun false (trimL l) = true := by
  induction l with
  | nil => exact h
  | cons c r ih =>
    by_cases hc : isSpace c = true
    · simp [okRun, hc] at h
      obtain ⟨_, hr⟩ := h
      have hr' : okRun false r = true := okRun_false_of_true r hr
      simpa [trimL, List.dropWhile_cons_of_pos hc] using ih hr'
    · simpa [trimL, List.dropWhile_cons_of_neg hc] using h

theorem trimL_head (l : List Char) :
    trimL l = [] ∨ ∃ c r, trimL l = c :: r ∧ isSpace c = false := by
  induction l with
  | nil => exact Or.inl rfl
  | cons c r ih =>
    by_cases hc : isSpace c = true
    · simpa [trimL, List.dropWhile_cons_of_pos hc] using ih
    · have hc' : isSpace c = false := by revert hc; cases isSpace c <;> simp
      exact Or.inr ⟨c, r, by simp [trimL, List.dropWhile_cons_of_neg hc], hc'⟩

theorem trimR_cons (c : Char) (r : List Char) :
    trimR (c :: r) = (match trimR r with
      | [] => if isSpace c then [] else [c]
      | x :: xs => c :: x :: xs) := rfl

theorem trimR_front (l : List Char) : ∃ s, l = trimR l ++ s := by
  induction l with
  | nil => exact ⟨[], rfl⟩
  | cons c r ih =>
    obtain ⟨s, hs⟩ := ih
    cases h : trimR r with
    | nil =>
      by_cases hc : isSpace c = true
      · exact ⟨c :: r, by simp [trimR, h, hc]⟩
      · refine ⟨s, ?_⟩
        rw [h] at hs
        simp [trimR, h, hc]
        exact hs
    | cons x xs =>
      refine ⟨s, ?_⟩
      rw [h] at hs
      simp [trimR, h]
      exact hs

theorem trimR_head (c : Char) (r : List Char) :
    trimR (c :: r) = [] ∨ ∃ xs, trimR (c :: r) = c :: xs := by
  cases h : trimR r with
  | nil =>
    by_cases hc : isSpace c = true
    · exact Or.inl (by simp [trimR, h, hc])
    · exact Or.inr ⟨[], by simp [trimR, h, hc]⟩
  | cons x xs => exact Or.inr ⟨x :: xs, by simp [trimR, h]⟩

theorem trimR_idem (l : List Char) : trimR (trimR l) = trimR l := by
  induction l with
  | nil => rfl
  | cons c r ih =>
    cases h : trimR r with
    | nil =>
      by_cases hc : isSpace c = true
      · simp [trimR, h, hc]
      · simp [trimR, h, hc]
    | cons x xs =>
      have hx : trimR (x :: xs) = x :: xs := by rw [← h, ih, h]
      have h2 : trimR (c :: r) = c :: x :: xs := by rw [trimR_cons, h]
      rw [h2, trimR_cons, hx]

/-- C3 amended: the whitespace-normalization step of the clean step —
collapse every whitespace run to a single space, then trim — is
idempotent; the full clean step is not, since hex-escape decoding can
produce fresh escape sequences. -/
theorem wsNorm_idempotent (l : List Char) : wsNorm (wsNorm l) = wsNorm l := by
  have hm : okRun false (collapseWs l) = true := okRun_collapseAux l false
  have hu : okRun false (trimL (collapseWs l)) = true := okRun_trimL _ hm
  have ht : okRun false (trimR (trimL (collapseWs l))) = true := by
    obtain ⟨s, hs⟩ := trimR_front (trimL (collapseWs l))
    exact okRun_append_left _ s false (by rw [← hs]; exact hu)
  have hc : collapseWs (trimR (trimL (collapseWs l))) = trimR (trimL (collapseWs l)) :=
    collapseAux_of_okRun _ false ht
  have htl : trimL (trimR (trimL (collapseWs l))) = trimR (trimL (collapseWs l)) := by
    rcases trimL_head (collapseWs l) with h0 | ⟨c, r, hcr, hcs⟩
    · rw [h0]; rfl
    · rw [hcr]
      rcases trimR_head c r with h1 | ⟨xs, h1⟩
      · rw [h1]; rfl
      · rw [h1]
        have hne : ¬ (isSpace c = true) := by rw [hcs]; exact Bool.false_ne_true
        simp [trimL, List.dropWhile_cons_of_neg hne]
  show trimR (trimL (collapseWs (trimR (trimL (collapseWs l))))) = trimR (trimL (collapseWs l))
  rw [hc, htl, trimR_idem]

/-! ### Supporting lemmas: tag stripping -/

theorem stripTags_cons (f : Nat) (c : Char) (r : List Char) :
    stripTags (f + 1) (c :: r) = (if c = '<' then
      match splitAtGt r with
      | some ([], a) => c :: '>' :: stripTags f a
      | some (_ :: _, a) => ' ' :: stripTags f a
      | none => c :: stripTags f r
    else c :: stripTags f r) := rfl

theorem tagHead_cons (c : Char) (r : List Char) :
    tagHead (c :: r) = (if c = '<' then
      match splitAtGt r with
      | some (b, _) => !b.isEmpty
      | none => false
    else false) := rfl

theorem hasTag_cons (c : Char) (r : List Char) :
    hasTag (c :: r) = (tagHead (c :: r) || hasTag r) := rfl

theorem hasStyleBlock_cons (c : Char) (r : List Char) :
    hasStyleBlock (c :: r) = ((styleMatchAt (c :: r)).isSome || hasStyleBlock r) := rfl

theorem splitAtGt_eq (l : List Char) :
    ∀ b a, splitAtGt l = some (b, a) → l = b ++ '>' :: a ∧ '>' ∉ b := by
  induction l with
  | nil => intro b a h; simp [splitAtGt] at h
  | cons c r ih =>
    intro b a h
    by_cases hc : c = '>'
    · subst hc
      simp only [splitAtGt, if_pos rfl] at h
      obtain ⟨hb, ha⟩ := Prod.mk.injEq .. ▸ Option.some.inj h
      subst hb; subst ha
      simp
    · simp only [splitAtGt, if_neg hc] at h
      cases hsp : splitAtGt r with
      | none => rw [hsp] at h; simp at h
      | some p =>
        obtain ⟨b', a'⟩ := p
        rw [hsp] at h
        have hinj := Option.some.inj h
        have hb : c :: b' = b := congrArg Prod.fst hinj
        have ha : a' = a := congrArg Prod.snd hinj
        obtain ⟨hr, hnb⟩ := ih b' a' hsp
        subst ha
        constructor
        · rw [← hb, hr]; rfl
        · rw [← hb]
          intro hm
          rcases List.mem_cons.mp hm with he | hm2
          · exact hc he.symm
          · exact hnb hm2

theorem splitAtGt_some_of_mem (l : List Char) (h : '>' ∈ l) :
    (splitAtGt l).isSome = true := by
  induction l with
  | nil => exact absurd h (List.not_mem_nil _)
  | cons c r ih =>
    by_cases hc : c = '>'
    · simp only [splitAtGt, if_pos hc]; rfl
    · have hr : '>' ∈ r := by
        rcases List.mem_cons.mp h with he | hm
        · exact absurd he.symm hc
        · exact hm
      simp only [splitAtGt, if_neg hc]
      cases hsp : splitAtGt r with
      | none => rw [hsp] at ih; exact absurd (ih hr) (by simp)
      | some p => obtain ⟨b, a⟩ := p; rfl

theorem splitAtGt_none_of_not_mem (l : List Char) (h : '>' ∉ l) :
    splitAtGt l = none := by
  cases hsp : splitAtGt l with
  | none => rfl
  | some p =>
    obtain ⟨b, a⟩ := p
    obtain ⟨hl, _⟩ := splitAtGt_eq l b a hsp
    exact absurd (by rw [hl]; simp : '>' ∈ l) h

theorem not_mem_of_splitAtGt_none (l : List Char) (h : splitAtGt l = none) :
    '>' ∉ l := by
  intro hm
  have := splitAtGt_some_of_mem l hm
  rw [h] at this
  simp at this

theorem gt_not_mem_stripTags : ∀ (f : Nat) (l : List Char), '>' ∉ l → '>' ∉ stripTags f l := by
  intro f
  induction f with
  | zero =>
    intro l h
    cases l with
    | nil => simp [stripTags]
    | cons c r => simpa [stripTags] using h
  | succ f ih =>
    intro l h
    cases l with
    | nil => simp [stripTags]
    | cons c r =>
      have hnr : '>' ∉ r := fun hm => h (List.mem_cons_of_mem _ hm)
      have hnc : c ≠ '>' := fun he => h (he ▸ List.mem_cons_self c r)
      by_cases hc : c = '<'
      · have hsp : splitAtGt r = none := splitAtGt_none_of_not_mem r hnr
        rw [stripTags_cons, if_pos hc, hsp]
        intro hm
        rcases List.mem_cons.mp hm with he | hm2
        · exact hnc he.symm
        · exact ih r hnr hm2
      · rw [stripTags_cons, if_neg hc]
        intro hm
        rcases List.mem_cons.mp hm with he | hm2
        · exact hnc he.symm
        · exact ih r hnr hm2

theorem hasTag_stripTags : ∀ (f : Nat) (l : List Char), l.length ≤ f →
    hasTag (stripTags f l) = false := by
  intro f
  induction f with
  | zero =>
    intro l h
    have hl : l = [] := List.length_eq_zero.mp (Nat.le_zero.mp h)
    subst hl
    rfl
  | succ f ih =>
    intro l h
    cases l with
    | nil => rfl
    | cons c r =>
      have hlen : r.length ≤ f := by
        have : r.length + 1 ≤ f + 1 := by simpa [List.length_cons] using h
        omega
      by_cases hc : c = '<'
      · cases hsp : splitAtGt r with
        | none =>
          rw [stripTags_cons, if_pos hc, hsp, hasTag_cons, tagHead_cons, if_pos hc]
          have hX : '>' ∉ stripTags f r :=
            gt_not_mem_stripTags f r (not_mem_of_splitAtGt_none r hsp)
          rw [splitAtGt_none_of_not_mem _ hX, ih r hlen]
          rfl
        | some p =>
          obtain ⟨b, a⟩ := p
          obtain ⟨hr, hnb⟩ := splitAtGt_eq r b a hsp
          cases b with
          | nil =>
            have hlena : a.length ≤ f := by
              have := congrArg List.length hr
              simp [List.length_cons] at this
              omega
            rw [stripTags_cons, if_pos hc, hsp, hasTag_cons, tagHead_cons, if_pos hc]
            have hsp2 : splitAtGt ('>' :: stripTags f a) = some ([], stripTags f a) := by
              simp [splitAtGt]
            rw [hsp2, hasTag_cons, tagHead_cons,
              if_neg (by decide : ('>' : Char) ≠ '<'), ih a hlena]
            rfl
          | cons x xs =>
            have hlena : a.length ≤ f := by
              have := congrArg List.length hr
              simp [List.length_cons, List.length_append] at this
              omega
            rw [stripTags_cons, if_pos hc, hsp, hasTag_cons, tagHead_cons,
              if_neg (by decide : (' ' : Char) ≠ '<'), ih a hlena]
            rfl
      · rw [stripTags_cons, if_neg hc, hasTag_cons, tagHead_cons, if_neg hc, ih r hlen]
        rfl

theorem hasTag_stripTagsR (l : List Char) : hasTag (stripTagsR l) = false :=
  hasTag_stripTags l.length l (le_refl _)

/-! ### Supporting lemmas: style blocks are tags -/

theorem hasPrefixCI_cons (p c : Char) (ps cs : List Char) :
    hasPrefixCI (p :: ps) (c :: cs)
      = (if lowerC p = lowerC c then hasPrefixCI ps cs else false) := rfl

theorem char_toNat_ofNat_lt (n : Nat) (h : n < 55296) : (Char.ofNat n).toNat = n := by
  unfold Char.ofNat
  rw [dif_pos (Or.inl h)]
  rfl

theorem lowerC_eq_lt_inv (c : Char) (h : lowerC c = '<') : c = '<' := by
  unfold lowerC at h
  by_cases hr : 65 ≤ c.toNat ∧ c.toNat ≤ 90
  · rw [if_pos hr] at h
    exfalso
    have h60 : (Char.ofNat (c.toNat + 32)).toNat = ('<' : Char).toNat := by rw [h]
    rw [char_toNat_ofNat_lt (c.toNat + 32) (by omega)] at h60
    have hlt : ('<' : Char).toNat = 60 := rfl
    rw [hlt] at h60
    omega
  · rw [if_neg hr] at h
    exact h

theorem stylePrefix_shape (l : List Char) (h : hasPrefixCI (str ("<style")) l = true) :
    ∃ c2 r2, l = '<' :: c2 :: r2 ∧ c2 ≠ '>' := by
  have hs : str ("<style") = '<' :: 's' :: str ("tyle") := rfl
  rw [hs] at h
  cases l with
  | nil => simp [hasPrefixCI] at h
  | cons c r =>
    rw [hasPrefixCI_cons] at h
    by_cases h1 : lowerC '<' = lowerC c
    · rw [if_pos h1] at h
      have h1' : lowerC c = '<' := by rw [← h1]; rfl
      have hc : c = '<' := lowerC_eq_lt_inv c h1'
      cases r with
      | nil => simp [hasPrefixCI] at h
      | cons c2 r2 =>
        rw [hasPrefixCI_cons] at h
        by_cases h2 : lowerC 's' = lowerC c2
        · refine ⟨c2, r2, by rw [hc], ?_⟩
          intro he
          subst he
          have e1 : lowerC 's' = 's' := rfl
          have e2 : lowerC '>' = '>' := rfl
          rw [e1, e2] at h2
          exact absurd h2 (by decide)
        · rw [if_neg h2] at h
          exact absurd h (by simp)
    · rw [if_neg h1] at h
      exact absurd h (by simp)

theorem tagHead_of_styleMatch (l rest : List Char) (h : styleMatchAt l = some rest) :
    tagHead l = true := by
  unfold styleMatchAt at h
  by_cases hp : hasPrefixCI (str ("<style")) l = true
  · rw [if_pos hp] at h
    obtain ⟨c2, r2, hl, hc2⟩ := stylePrefix_shape l hp
    cases hsp : splitAtGt (l.drop 6) with
    | none => rw [hsp] at h; exact absurd h (by simp)
    | some p =>
      obtain ⟨b0, a0⟩ := p
      obtain ⟨hdec, _⟩ := splitAtGt_eq _ b0 a0 hsp
      have hmem6 : '>' ∈ l.drop 6 := by rw [hdec]; simp
      subst hl
      have hdrop : ('<' :: c2 :: r2).drop 6 = r2.drop 4 := rfl
      rw [hdrop] at hmem6
      have hmem : '>' ∈ r2 := List.mem_of_mem_drop hmem6
      rw [tagHead_cons, if_pos rfl]
      have hmem2 : '>' ∈ c2 :: r2 := List.mem_cons_of_mem _ hmem
      have hiss := splitAtGt_some_of_mem _ hmem2
      cases hsp2 : splitAtGt (c2 :: r2) with
      | none => rw [hsp2] at hiss; exact absurd hiss (by simp)
      | some q =>
        obtain ⟨b, a⟩ := q
        obtain ⟨hq, _⟩ := splitAtGt_eq _ b a hsp2
        cases b with
        | nil =>
          rw [List.nil_append] at hq
          injection hq with hc2' _
          exact absurd hc2' hc2
        | cons y ys => simp
  · rw [if_neg hp] at h
    exact absurd h (by simp)

theorem hasTag_of_hasStyleBlock (l : List Char) (h : hasStyleBlock l = true) :
    hasTag l = true := by
  induction l with
  | nil => exact absurd h (by simp [hasStyleBlock])
  | cons c r ih =>
    rw [hasStyleBlock_cons] at h
    rcases Bool.or_eq_true_iff.mp h with hs | hr
    · obtain ⟨rest, hrest⟩ := Option.isSome_iff_exists.mp hs
      rw [hasTag_cons, tagHead_of_styleMatch _ _ hrest]
      rfl
    · rw [hasTag_cons, ih hr]
      simp

theorem hasStyleBlock_stripTagsR (l : List Char) : hasStyleBlock (stripTagsR l) = false := by
  cases hsb : hasStyleBlock (stripTagsR l) with
  | false => rfl
  | true =>
    have ht := hasTag_of_hasStyleBlock _ hsb
    rw [hasTag_stripTagsR] at ht
    exact absurd ht (by simp)

/-- C6 counterexample: entity decoding runs after tag stripping, so a
captured HTML span whose angle brackets are written as entities yields
a result that does contain a complete tag and a complete style block. -/
theorem html_entities_reintroduce_tags_cex :
    extractTextBody (str ("Content-Type: text/html\r\n\r\n&lt;style&gt;x&lt;/style&gt;\r\n--")) = str ("<style>x</style>") ∧
    hasTag (extractTextBody (str ("Content-Type: text/html\r\n\r\n&lt;style&gt;x&lt;/style&gt;\r\n--"))) = true ∧
    hasStyleBlock (extractTextBody (str ("Content-Type: text/html\r\n\r\n&lt;style&gt;x&lt;/style&gt;\r\n--"))) = true :=
  ⟨rfl, rfl, rfl⟩

/-- C6 amended: when no plain-text section matches but an HTML section
does, the extractor returns the captured span with style blocks
stripped, remaining tags replaced by spaces, and the four entities
decoded in source order, then cleaned; the tag-stripping output itself
contains no complete tag and no style block — but entity decoding and
quoted-printable decoding run later and may reintroduce angle-bracket
text into the final result. -/
theorem extract_html_branch (raw cap : List Char)
    (h1 : plainSection raw = none) (h2 : htmlSection raw = some cap) :
    extractTextBody raw = cleanBody (entityAll (stripTagsR (stripStylesR cap))) ∧
    hasTag (stripTagsR (stripStylesR cap)) = false ∧
    hasStyleBlock (stripTagsR (stripStylesR cap)) = false := by
  refine ⟨?_, hasTag_stripTagsR _, hasStyleBlock_stripTagsR _⟩
  unfold extractTextBody
  rw [h1, h2]

/-- Witness for the amended C6 on a concrete HTML-only message. -/
theorem extract_html_branch_witness :
    extractTextBody (str ("Content-Type: text/html\r\n\r\n<p>Hi &amp; bye</p>\r\n--")) =
      cleanBody (entityAll (stripTagsR (stripStylesR (str ("<p>Hi &amp; bye</p>"))))) ∧
    hasTag (stripTagsR (stripStylesR (str ("<p>Hi &amp; bye</p>")))) = false ∧
    hasStyleBlock (stripTagsR (stripStylesR (str ("<p>Hi &amp; bye</p>")))) = false :=
  extract_html_branch _ _ rfl rfl
